import Mathlib

/-!
Verification of the AutoFixMark core algorithms against their source.

The development shallowly embeds:
* `src/app/predict_pathways.py` — the recursive rule-tree evaluator `evaluate`;
* `src/app/kofamscan_parser.py` — `group_by_genes`, `determine_selected_indices`,
  `format_ko_output` (floats modelled as rationals);
* `src/app/kofam_parser.py` — the ratio-free selector `determine_selected_indices`.
-/

set_option maxHeartbeats 1000000

namespace predict_pathways

/-- Embedding of the rule-tree node processed by `evaluate` in
`src/app/predict_pathways.py`.  A node is a JSON object with a `type` string,
an optional `id_list` (its presence makes the node a leaf), an optional
integer `min`, and a `list` of children (absent modelled as `[]`, matching
`defn.get("list", [])`). -/
inductive RuleNode : Type where
  | mk (type : String) (id_list : Option (List String)) (min : Option Int) (list : List RuleNode)

mutual

/-- Embedding of `evaluate` (src/app/predict_pathways.py lines 29-58).
Python's `all`/`any` over generators short-circuit and the first raised
`ValueError` propagates; this is modelled by `Except String Bool` with the
helpers below reproducing the generator traversal order. -/
def evaluate : RuleNode → List String → Except String Bool
  | RuleNode.mk t idl mn subs, ids =>
    match idl with
    | some id_list =>
        if t = "all_of" then Except.ok (id_list.all fun k => decide (k ∈ ids))
        else if t = "one_of" then Except.ok (id_list.any fun k => decide (k ∈ ids))
        else if t = "at_least" then
          Except.ok (decide (((id_list.countP fun k => decide (k ∈ ids)) : Int) ≥ mn.getD (id_list.length : Int)))
        else Except.error ("Unknown leaf type: " ++ t)
    | none =>
        if t = "all_of" then evalAll subs ids
        else if t = "one_of" then evalAny subs ids
        else if t = "at_least" then
          match evalCount subs ids with
          | Except.error e => Except.error e
          | Except.ok c => Except.ok (decide ((c : Int) ≥ mn.getD (subs.length : Int)))
        else Except.error ("Unknown composite type: " ++ t)

/-- Embedding of `all(evaluate(sub, ids) for sub in subs)`: left-to-right,
stops at the first `False`, propagates the first exception. -/
def evalAll : List RuleNode → List String → Except String Bool
  | [], _ => Except.ok true
  | s :: rest, ids =>
      match evaluate s ids with
      | Except.error e => Except.error e
      | Except.ok b => if b then evalAll rest ids else Except.ok false

/-- Embedding of `any(evaluate(sub, ids) for sub in subs)`: left-to-right,
stops at the first `True`, propagates the first exception. -/
def evalAny : List RuleNode → List String → Except String Bool
  | [], _ => Except.ok false
  | s :: rest, ids =>
      match evaluate s ids with
      | Except.error e => Except.error e
      | Except.ok b => if b then Except.ok true else evalAny rest ids

/-- Embedding of `sum(1 for sub in subs if evaluate(sub, ids))`: every child is
evaluated, left-to-right, the first exception propagates. -/
def evalCount : List RuleNode → List String → Except String Nat
  | [], _ => Except.ok 0
  | s :: rest, ids =>
      match evaluate s ids with
      | Except.error e => Except.error e
      | Except.ok b =>
          match evalCount rest ids with
          | Except.error e => Except.error e
          | Except.ok c => Except.ok (if b then c + 1 else c)

end

mutual

/-- A node (or one of its descendants, through the `list` field) whose `type`
is none of the three recognized combinators. -/
def hasUnknownType : RuleNode → Bool
  | RuleNode.mk t _ _ subs =>
      if t = "all_of" ∨ t = "one_of" ∨ t = "at_least" then hasUnknownTypeList subs else true

/-- Some node of the list (or a descendant) has an unrecognized `type`. -/
def hasUnknownTypeList : List RuleNode → Bool
  | [] => false
  | s :: rest => hasUnknownType s || hasUnknownTypeList rest

end

mutual

/-- Modelled from the spec: the reference full-evaluation recursion of §4.3 —
a leaf dispatches on the presence of `id_list`; ALL_OF demands every id (or
child), ONE_OF at least one, AT_LEAST a count reaching `min` (defaulting to
the list length).  Every child is evaluated; no exceptions. -/
def evalRef : RuleNode → List String → Bool
  | RuleNode.mk t idl mn subs, ids =>
    match idl with
    | some id_list =>
        if t = "all_of" then id_list.all fun k => decide (k ∈ ids)
        else if t = "one_of" then id_list.any fun k => decide (k ∈ ids)
        else if t = "at_least" then
          decide (((id_list.countP fun k => decide (k ∈ ids)) : Int) ≥ mn.getD (id_list.length : Int))
        else false
    | none =>
        if t = "all_of" then allRef subs ids
        else if t = "one_of" then anyRef subs ids
        else if t = "at_least" then decide ((countRef subs ids : Int) ≥ mn.getD (subs.length : Int))
        else false

/-- Reference: every child evaluates to true. -/
def allRef : List RuleNode → List String → Bool
  | [], _ => true
  | s :: rest, ids => evalRef s ids && allRef rest ids

/-- Reference: at least one child evaluates to true. -/
def anyRef : List RuleNode → List String → Bool
  | [], _ => false
  | s :: rest, ids => evalRef s ids || anyRef rest ids

/-- Reference: the number of children evaluating to true. -/
def countRef : List RuleNode → List String → Nat
  | [], _ => 0
  | s :: rest, ids => (if evalRef s ids then 1 else 0) + countRef rest ids

end

theorem hasUnknownTypeList_eq_false {l : List RuleNode} :
    hasUnknownTypeList l = false ↔ ∀ s ∈ l, hasUnknownType s = false := by
  induction l with
  | nil => simp [hasUnknownTypeList]
  | cons s rest ih => simp [hasUnknownTypeList, ih]

theorem evalAll_eq_ref (ids : List String) :
    ∀ l : List RuleNode,
      (∀ s ∈ l, hasUnknownType s = false → evaluate s ids = Except.ok (evalRef s ids)) →
      hasUnknownTypeList l = false → evalAll l ids = Except.ok (allRef l ids) := by
  intro l
  induction l with
  | nil => intro _ _; rfl
  | cons s rest ih =>
    intro hIH hwf
    rw [hasUnknownTypeList_eq_false] at hwf
    have hs := hIH s (List.mem_cons_self s rest) (hwf s (List.mem_cons_self s rest))
    have hrest : hasUnknownTypeList rest = false :=
      hasUnknownTypeList_eq_false.mpr fun x hx => hwf x (List.mem_cons_of_mem s hx)
    have ih' := ih (fun x hx => hIH x (List.mem_cons_of_mem s hx)) hrest
    cases hb : evalRef s ids <;> simp [evalAll, allRef, hs, hb, ih']

theorem evalAny_eq_ref (ids : List String) :
    ∀ l : List RuleNode,
      (∀ s ∈ l, hasUnknownType s = false → evaluate s ids = Except.ok (evalRef s ids)) →
      hasUnknownTypeList l = false → evalAny l ids = Except.ok (anyRef l ids) := by
  intro l
  induction l with
  | nil => intro _ _; rfl
  | cons s rest ih =>
    intro hIH hwf
    rw [hasUnknownTypeList_eq_false] at hwf
    have hs := hIH s (List.mem_cons_self s rest) (hwf s (List.mem_cons_self s rest))
    have hrest : hasUnknownTypeList rest = false :=
      hasUnknownTypeList_eq_false.mpr fun x hx => hwf x (List.mem_cons_of_mem s hx)
    have ih' := ih (fun x hx => hIH x (List.mem_cons_of_mem s hx)) hrest
    cases hb : evalRef s ids <;> simp [evalAny, anyRef, hs, hb, ih']

theorem evalCount_eq_ref (ids : List String) :
    ∀ l : List RuleNode,
      (∀ s ∈ l, hasUnknownType s = false → evaluate s ids = Except.ok (evalRef s ids)) →
      hasUnknownTypeList l = false → evalCount l ids = Except.ok (countRef l ids) := by
  intro l
  induction l with
  | nil => intro _ _; rfl
  | cons s rest ih =>
    intro hIH hwf
    rw [hasUnknownTypeList_eq_false] at hwf
    have hs := hIH s (List.mem_cons_self s rest) (hwf s (List.mem_cons_self s rest))
    have hrest : hasUnknownTypeList rest = false :=
      hasUnknownTypeList_eq_false.mpr fun x hx => hwf x (List.mem_cons_of_mem s hx)
    have ih' := ih (fun x hx => hIH x (List.mem_cons_of_mem s hx)) hrest
    cases hb : evalRef s ids <;> simp [evalCount, countRef, hs, hb, ih', Nat.add_comm]

theorem eval_eq_ref :
    ∀ (d : RuleNode) (ids : List String),
      hasUnknownType d = false → evaluate d ids = Except.ok (evalRef d ids)
  | RuleNode.mk t idl mn subs, ids => by
    intro h
    have IH : ∀ s ∈ subs, hasUnknownType s = false → evaluate s ids = Except.ok (evalRef s ids) :=
      fun s hs => eval_eq_ref s ids
    by_cases hc : t = "all_of" ∨ t = "one_of" ∨ t = "at_least"
    · simp only [hasUnknownType, if_pos hc] at h
      cases idl with
      | some id_list =>
        rcases hc with h1 | h1 | h1 <;> subst h1 <;> rfl
      | none =>
        rcases hc with h1 | h1 | h1 <;> subst h1
        · simpa only [evaluate, evalRef] using evalAll_eq_ref ids subs IH h
        · simpa only [evaluate, evalRef] using evalAny_eq_ref ids subs IH h
        · simp [evaluate, evalRef, evalCount_eq_ref ids subs IH h]
    · exfalso
      simp only [hasUnknownType, if_neg hc] at h
      exact Bool.noConfusion h
termination_by d => sizeOf d
decreasing_by
  have h1 := List.sizeOf_lt_of_mem hs
  simp only [RuleNode.mk.sizeOf_spec]
  omega

theorem countRef_le_length (ids : List String) : ∀ l : List RuleNode, countRef l ids ≤ l.length := by
  intro l
  induction l with
  | nil => simp [countRef]
  | cons s rest ih => cases hb : evalRef s ids <;> simp [countRef, hb] <;> omega

theorem allRef_iff_countRef (ids : List String) :
    ∀ l : List RuleNode, allRef l ids = true ↔ countRef l ids = l.length := by
  intro l
  induction l with
  | nil => simp [allRef, countRef]
  | cons s rest ih =>
    have hle := countRef_le_length ids rest
    cases hb : evalRef s ids <;> simp [allRef, countRef, hb, ih] <;> omega

theorem decide_count_ge (c n : ℕ) (b : Bool) (hle : c ≤ n) (hb : b = true ↔ c = n) :
    decide ((c : Int) ≥ (n : Int)) = b := by
  by_cases h : c = n
  · subst h
    simp [hb.mpr rfl]
  · have hnot : ¬ ((c : Int) ≥ (n : Int)) := by omega
    have hb' : b = false := by
      cases b with
      | true => exact absurd (hb.mp rfl) h
      | false => rfl
    simp [hb', hnot]

/-- Rule-tree nodes used as concrete test inputs: an empty-list ALL_OF leaf
(always true), a one-id ALL_OF leaf (false on an empty label set), and a leaf
with an unrecognized combinator. -/
def leafTrue : RuleNode := RuleNode.mk "all_of" (some []) none []

def leafFalse : RuleNode := RuleNode.mk "all_of" (some ["KX"]) none []

def badLeaf : RuleNode := RuleNode.mk "bogus" (some ["KY"]) none []

def badAllOf : RuleNode := RuleNode.mk "all_of" none none [leafFalse, badLeaf]

def badAtLeast : RuleNode := RuleNode.mk "at_least" none none [leafFalse, badLeaf]

def goodOneOf : RuleNode := RuleNode.mk "one_of" none none [leafFalse, leafTrue]

/-- C4: evaluation raises an invalid-definition error only when the tree holds
an unrecognized combinator, and a tree with only recognized combinators always
returns a boolean; but because the ALL_OF/ONE_OF composite cases short-circuit,
a tree holding an unrecognized node need not fail (see the counterexample), so
the stated "if and only if" holds in one direction only. -/
theorem claim_C4 (d : RuleNode) (ids : List String) :
    (∀ e, evaluate d ids = Except.error e → hasUnknownType d = true) ∧
    (hasUnknownType d = false → ∃ b, evaluate d ids = Except.ok b) := by
  constructor
  · intro e he
    cases h0 : hasUnknownType d with
    | true => rfl
    | false =>
      rw [eval_eq_ref d ids h0] at he
      exact Except.noConfusion he
  · intro h0
    exact ⟨evalRef d ids, eval_eq_ref d ids h0⟩

/-- C4 counterexample: `badAllOf` contains a node with the unrecognized
combinator "bogus", yet `evaluate` returns `ok false` without failing, because
Python's `all(...)` short-circuits at the earlier false child. -/
theorem claim_C4_counterexample :
    hasUnknownType badAllOf = true ∧ evaluate badAllOf [] = Except.ok false :=
  ⟨rfl, rfl⟩

theorem claim_C4_witness :
    (∃ b, evaluate goodOneOf [] = Except.ok b) ∧ hasUnknownType badAtLeast = true :=
  ⟨(claim_C4 goodOneOf []).2 rfl, (claim_C4 badAtLeast []).1 "Unknown leaf type: bogus" rfl⟩

/-- C5: on every rule tree whose combinators are all recognized, `evaluate`
returns (without error) exactly the value of the reference recursion `evalRef`
taken from the spec's semantics table. -/
theorem claim_C5 (d : RuleNode) (ids : List String) (h : hasUnknownType d = false) :
    evaluate d ids = Except.ok (evalRef d ids) :=
  eval_eq_ref d ids h

theorem claim_C5_witness :
    evaluate goodOneOf ["K1"] = Except.ok (evalRef goodOneOf ["K1"]) :=
  claim_C5 goodOneOf ["K1"] rfl

/-- C6: an AT_LEAST leaf with `min` omitted evaluates exactly like the ALL_OF
leaf with the same `id_list`, unconditionally; an AT_LEAST composite with
`min` omitted evaluates like the ALL_OF composite with the same children
provided the children are all well formed — with an unrecognized child the two
can differ (see the counterexample), since ALL_OF short-circuits and AT_LEAST
evaluates every child. -/
theorem claim_C6 (ids : List String) :
    (∀ (l : List String) (cs : List RuleNode),
        evaluate (RuleNode.mk "at_least" (some l) none cs) ids =
          evaluate (RuleNode.mk "all_of" (some l) none cs) ids) ∧
    (∀ cs : List RuleNode, hasUnknownTypeList cs = false →
        evaluate (RuleNode.mk "at_least" none none cs) ids =
          evaluate (RuleNode.mk "all_of" none none cs) ids) := by
  constructor
  · intro l cs
    have e1 : evaluate (RuleNode.mk "at_least" (some l) none cs) ids =
        Except.ok (decide (((l.countP fun k => decide (k ∈ ids)) : Int) ≥ (l.length : Int))) := rfl
    have e2 : evaluate (RuleNode.mk "all_of" (some l) none cs) ids =
        Except.ok (l.all fun k => decide (k ∈ ids)) := rfl
    rw [e1, e2]
    refine congrArg Except.ok (decide_count_ge _ _ _ (List.countP_le_length _) ?_)
    rw [List.all_eq_true, List.countP_eq_length]
  · intro cs hwf
    have hIH : ∀ s ∈ cs, hasUnknownType s = false → evaluate s ids = Except.ok (evalRef s ids) :=
      fun s _ hs => eval_eq_ref s ids hs
    have h1 := evalCount_eq_ref ids cs hIH hwf
    have h2 := evalAll_eq_ref ids cs hIH hwf
    have e1 : evaluate (RuleNode.mk "at_least" none none cs) ids =
        (match evalCount cs ids with
         | Except.error e => Except.error e
         | Except.ok c => Except.ok (decide ((c : Int) ≥ (cs.length : Int)))) := rfl
    have e2 : evaluate (RuleNode.mk "all_of" none none cs) ids = evalAll cs ids := rfl
    rw [e1, e2, h1, h2]
    exact congrArg Except.ok
      (decide_count_ge _ _ _ (countRef_le_length ids cs) (allRef_iff_countRef ids cs))

/-- C6 counterexample: on children `[leafFalse, badLeaf]`, the min-less
AT_LEAST composite raises on the bad child while the ALL_OF composite
short-circuits to `ok false`, so "evaluate returns the same value" fails. -/
theorem claim_C6_counterexample :
    evaluate badAtLeast [] = Except.error ("Unknown leaf type: bogus") ∧
    evaluate badAllOf [] = Except.ok false ∧
    evaluate badAtLeast [] ≠ evaluate badAllOf [] :=
  ⟨rfl, rfl, fun h => Except.noConfusion h⟩

theorem claim_C6_witness :
    evaluate (RuleNode.mk "at_least" none none [leafTrue]) [] =
      evaluate (RuleNode.mk "all_of" none none [leafTrue]) [] :=
  (claim_C6 []).2 [leafTrue] rfl

end predict_pathways

/-- Accumulation loop shared by the two Python selectors: walk the hits with
their 0-based position `index`, inserting `index` into the selected set
whenever the per-hit condition holds.  Both `determine_selected_indices`
functions instantiate this with their own loop-body condition. -/
def selectLoop {α : Type} (cond : ℕ → α → Bool) : ℕ → List α → Finset ℕ
  | _, [] => ∅
  | n, a :: rest =>
      let s := selectLoop cond (n + 1) rest
      if cond n a then insert n s else s

theorem mem_selectLoop {α : Type} (cond : ℕ → α → Bool) :
    ∀ (l : List α) (n i : ℕ),
      i ∈ selectLoop cond n l ↔
        ∃ k, ∃ hk : k < l.length, i = n + k ∧ cond (n + k) (l.get ⟨k, hk⟩) = true := by
  intro l
  induction l with
  | nil => intro n i; simp [selectLoop]
  | cons a rest ih =>
    intro n i
    have hsplit : (∃ k, ∃ hk : k < (a :: rest).length,
          i = n + k ∧ cond (n + k) ((a :: rest).get ⟨k, hk⟩) = true) ↔
        ((i = n ∧ cond n a = true) ∨
          ∃ k, ∃ hk : k < rest.length,
            i = (n + 1) + k ∧ cond ((n + 1) + k) (rest.get ⟨k, hk⟩) = true) := by
      constructor
      · rintro ⟨k, hk, hik, hck⟩
        cases k with
        | zero => exact Or.inl ⟨by simpa using hik, by simpa using hck⟩
        | succ j =>
          refine Or.inr ⟨j, by simpa using hk, by omega, ?_⟩
          have harith : (n + 1) + j = n + (j + 1) := by omega
          rw [harith]
          simpa using hck
      · rintro (⟨hik, hca⟩ | ⟨k, hk, hik, hck⟩)
        · exact ⟨0, by simp, by simpa using hik, by simpa using hca⟩
        · refine ⟨k + 1, by simpa using hk, by omega, ?_⟩
          have harith : n + (k + 1) = (n + 1) + k := by omega
          rw [harith]
          simpa using hck
    rw [hsplit]
    simp only [selectLoop]
    by_cases hc : cond n a = true
    · rw [if_pos hc, Finset.mem_insert, ih (n + 1) i]
      constructor
      · rintro (h | h)
        · exact Or.inl ⟨h, hc⟩
        · exact Or.inr h
      · rintro (⟨h, _⟩ | h)
        · exact Or.inl h
        · exact Or.inr h
    · rw [if_neg hc, ih (n + 1) i]
      constructor
      · intro h
        exact Or.inr h
      · rintro (⟨hik, hca⟩ | h)
        · exact absurd hca hc
        · exact h

namespace KofamscanParser

/-- Embedding of the `Row` dataclass of src/app/kofamscan_parser.py; the float
fields `thrshld` and `score` are modelled as rationals. -/
structure Row where
  asterisk : Bool
  original_columns : List String
  ko : String
  gene : String
  thrshld : Rat
  score : Rat
deriving DecidableEq, Inhabited

/-- Embedding of the ratio check of `determine_selected_indices`
(src/app/kofamscan_parser.py lines 79-83): when `min_score_ratio` is given and
`hit.thrshld > 0`, pass iff `score / thrshld >= min_score_ratio`; otherwise
pass unconditionally. -/
def passesRatioCheck (hit : Row) (min_score_ratio : Option Rat) : Bool :=
  match min_score_ratio with
  | some r => if hit.thrshld > 0 then decide (hit.score / hit.thrshld ≥ r) else true
  | none => true

/-- The loop-body condition of `determine_selected_indices`
(src/app/kofamscan_parser.py line 86). -/
def selectCond (has_asterisk : Bool) (top_n : Int) (msr : Option Rat)
    (index : ℕ) (hit : Row) : Bool :=
  hit.asterisk || (!has_asterisk && decide ((index : Int) < top_n) && passesRatioCheck hit msr)

/-- Embedding of `determine_selected_indices` (src/app/kofamscan_parser.py
lines 67-89): pre-scan for any asterisk, then select each index whose hit is
marked, or — when no hit of the gene is marked — whose index is below `top_n`
and whose hit passes the ratio check. -/
def determine_selected_indices (hits : List Row) (top_n : Int)
    (min_score_ratio : Option Rat) : Finset ℕ :=
  selectLoop (selectCond (hits.any fun h => h.asterisk) top_n min_score_ratio) 0 hits

theorem mem_selected_scan (hits : List Row) (top_n : Int) (msr : Option Rat) (i : ℕ) :
    i ∈ determine_selected_indices hits top_n msr ↔
      ∃ hk : i < hits.length,
        selectCond (hits.any fun h => h.asterisk) top_n msr i (hits.get ⟨i, hk⟩) = true := by
  rw [determine_selected_indices, mem_selectLoop]
  constructor
  · rintro ⟨k, hk, hik, hck⟩
    rw [Nat.zero_add] at hik hck
    subst hik
    exact ⟨hk, hck⟩
  · rintro ⟨hk, hc⟩
    refine ⟨i, hk, by omega, ?_⟩
    rw [Nat.zero_add]
    exact hc

/-- Sample rows for concrete witnesses: an unmarked row passing every check,
a marked row, and an unmarked row with a negative threshold. -/
def rowPlain : Row :=
  { asterisk := false, original_columns := ["", "g", "K1", "50", "80", "1e-10", "d"],
    ko := "K1", gene := "g", thrshld := 50, score := 80 }

def rowMark : Row :=
  { asterisk := true, original_columns := ["*", "g", "K2", "50", "80", "1e-10", "d"],
    ko := "K2", gene := "g", thrshld := 50, score := 80 }

def rowNeg : Row :=
  { asterisk := false, original_columns := ["", "g", "K3", "-1", "0", "1e-10", "d"],
    ko := "K3", gene := "g", thrshld := -1, score := 0 }

/-- C1: on a hit sequence with no marked hit, the selected indices are exactly
the indices below `top_n` whose hit passes the ratio check; in particular, for
`top_n <= 0` nothing is selected. -/
theorem claim_C1 (hits : List Row) (top_n : Int) (msr : Option Rat)
    (hno : ∀ h ∈ hits, h.asterisk = false) :
    (∀ i, i ∈ determine_selected_indices hits top_n msr ↔
        ∃ hk : i < hits.length,
          ((i : Int) < top_n ∧ passesRatioCheck (hits.get ⟨i, hk⟩) msr = true)) ∧
    (top_n ≤ 0 → determine_selected_indices hits top_n msr = ∅) := by
  have hany : (hits.any fun h => h.asterisk) = false := by
    simp only [List.any_eq_false]
    intro h hh
    simp [hno h hh]
  have hmain : ∀ i, i ∈ determine_selected_indices hits top_n msr ↔
      ∃ hk : i < hits.length,
        ((i : Int) < top_n ∧ passesRatioCheck (hits.get ⟨i, hk⟩) msr = true) := by
    intro i
    rw [mem_selected_scan]
    constructor
    · rintro ⟨hk, hc⟩
      refine ⟨hk, ?_⟩
      rw [selectCond, hany, hno _ (hits.get_mem _ _)] at hc
      simpa using hc
    · rintro ⟨hk, htop, hpass⟩
      refine ⟨hk, ?_⟩
      rw [selectCond, hany, hno _ (hits.get_mem _ _)]
      simp only [Bool.not_false, Bool.true_and, Bool.false_or]
      rw [hpass, Bool.and_true]
      exact decide_eq_true htop
  refine ⟨hmain, ?_⟩
  intro htop
  rw [Finset.eq_empty_iff_forall_not_mem]
  intro i hi
  obtain ⟨hk, hlt, _⟩ := (hmain i).mp hi
  omega

theorem claim_C1_witness :
    0 ∈ determine_selected_indices [rowPlain] 1 none ↔
      ∃ hk : 0 < ([rowPlain] : List Row).length,
        (((0 : ℕ) : Int) < 1 ∧
          passesRatioCheck (([rowPlain] : List Row).get ⟨0, hk⟩) none = true) :=
  (claim_C1 [rowPlain] 1 none (by decide)).1 0

/-- C2: as soon as some hit of the sequence is marked, the selected indices
are exactly the marked ones — independent of `top_n` and of the ratio
parameter. -/
theorem claim_C2 (hits : List Row) (top_n : Int) (msr : Option Rat)
    (hmark : ∃ h ∈ hits, h.asterisk = true) :
    ∀ i, i ∈ determine_selected_indices hits top_n msr ↔
      ∃ hk : i < hits.length, (hits.get ⟨i, hk⟩).asterisk = true := by
  have hany : (hits.any fun h => h.asterisk) = true := by
    simp only [List.any_eq_true]
    obtain ⟨h, hh, ha⟩ := hmark
    exact ⟨h, hh, ha⟩
  intro i
  rw [mem_selected_scan]
  constructor
  · rintro ⟨hk, hc⟩
    refine ⟨hk, ?_⟩
    rw [selectCond, hany] at hc
    simpa using hc
  · rintro ⟨hk, ha⟩
    refine ⟨hk, ?_⟩
    rw [selectCond, ha, Bool.true_or]

theorem claim_C2_witness :
    1 ∈ determine_selected_indices [rowPlain, rowMark] 3 none ↔
      ∃ hk : 1 < ([rowPlain, rowMark] : List Row).length,
        (([rowPlain, rowMark] : List Row).get ⟨1, hk⟩).asterisk = true :=
  claim_C2 [rowPlain, rowMark] 3 none (by decide) 1

/-- C3 (amended): the ratio check passes when `min_score_ratio` is absent, and
— when it is supplied — passes iff the threshold is non-positive (not merely
equal to 0.0) or the quotient reaches the ratio.  The original claim, which
compares the quotient whenever the threshold differs from 0.0, fails on a
negative threshold (see the counterexample): the code tests `thrshld > 0`. -/
theorem claim_C3 (hit : Row) (r : Rat) :
    passesRatioCheck hit none = true ∧
    (passesRatioCheck hit (some r) = true ↔
      (hit.thrshld ≤ 0 ∨ hit.score / hit.thrshld ≥ r)) := by
  refine ⟨rfl, ?_⟩
  rw [passesRatioCheck]
  by_cases hpos : hit.thrshld > 0
  · rw [if_pos hpos]
    simp only [decide_eq_true_eq]
    constructor
    · intro h
      exact Or.inr h
    · rintro (h | h)
      · exact absurd h (not_le.mpr hpos)
      · exact h
  · rw [if_neg hpos]
    have hle : hit.thrshld ≤ 0 := not_lt.mp hpos
    simp [hle]

/-- C3 counterexample: with a negative threshold the check passes although the
quotient is below the supplied ratio, contradicting the claim's "in every
other case it passes iff score / threshold >= min_score_ratio". -/
theorem claim_C3_counterexample :
    rowNeg.thrshld ≠ 0 ∧ passesRatioCheck rowNeg (some (1 / 2)) = true ∧
      ¬ (rowNeg.score / rowNeg.thrshld ≥ ((1 : Rat) / 2)) := by
  refine ⟨by norm_num [rowNeg], rfl, by norm_num [rowNeg]⟩

/-- C9: every selected index is within the bounds of the hit list, so the
`index < len(hits)` guards of `format_ko_output` and `format_gene_output`
filter nothing. -/
theorem claim_C9 (hits : List Row) (top_n : Int) (msr : Option Rat) :
    (∀ i ∈ determine_selected_indices hits top_n msr, i < hits.length) ∧
    (determine_selected_indices hits top_n msr).filter (fun i => i < hits.length) =
      determine_selected_indices hits top_n msr := by
  have hb : ∀ i ∈ determine_selected_indices hits top_n msr, i < hits.length := by
    intro i hi
    obtain ⟨hk, _⟩ := (mem_selected_scan hits top_n msr i).mp hi
    exact hk
  exact ⟨hb, Finset.filter_eq_self.mpr hb⟩

theorem claim_C9_witness :
    0 ∈ determine_selected_indices [rowMark] 1 none ∧ 0 < ([rowMark] : List Row).length :=
  ⟨by decide, (claim_C9 [rowMark] 1 none).1 0 (by decide)⟩

end KofamscanParser

namespace KofamParser

/-- Embedding of the `Hit` dataclass of src/app/kofam_parser.py. -/
structure Hit where
  asterisk : Bool
  original_columns : List String
  ko : String
  gene_name : String
deriving DecidableEq, Inhabited

/-- The loop-body condition of the ratio-free `determine_selected_indices`
(src/app/kofam_parser.py line 73). -/
def selectCond (has_asterisk : Bool) (top_n : Int) (index : ℕ) (hit : Hit) : Bool :=
  hit.asterisk || (!has_asterisk && decide ((index : Int) < top_n))

/-- Embedding of `determine_selected_indices` (src/app/kofam_parser.py
lines 63-76), which takes no ratio parameter. -/
def determine_selected_indices (hits : List Hit) (top_n : Int) : Finset ℕ :=
  selectLoop (selectCond (hits.any fun h => h.asterisk) top_n) 0 hits

theorem mem_selected_kofam (hits : List Hit) (top_n : Int) (i : ℕ) :
    i ∈ determine_selected_indices hits top_n ↔
      ∃ hk : i < hits.length,
        selectCond (hits.any fun h => h.asterisk) top_n i (hits.get ⟨i, hk⟩) = true := by
  rw [determine_selected_indices, mem_selectLoop]
  constructor
  · rintro ⟨k, hk, hik, hck⟩
    rw [Nat.zero_add] at hik hck
    subst hik
    exact ⟨hk, hck⟩
  · rintro ⟨hk, hc⟩
    refine ⟨i, hk, by omega, ?_⟩
    rw [Nat.zero_add]
    exact hc

def hitMark : Hit :=
  { asterisk := true, original_columns := ["*", "g", "K2", "50", "80", "1e-10", "d"],
    ko := "K2", gene_name := "g" }

end KofamParser

theorem any_map_id {α : Type} (l : List α) (f : α → Bool) : (l.map f).any id = l.any f := by
  induction l with
  | nil => rfl
  | cons a rest ih => simp [ih]

/-- C10: on hit sequences carrying the same per-hit marked flags, the selector
of KofamParser (no ratio parameter) and the selector of KofamscanParser with
`min_score_ratio` absent return the same index set: the ratio parameter is a
conservative extension. -/
theorem claim_C10 (hits : List KofamParser.Hit) (rows : List KofamscanParser.Row)
    (top_n : Int)
    (hsame : hits.map (fun h => h.asterisk) = rows.map (fun r => r.asterisk)) :
    KofamParser.determine_selected_indices hits top_n =
      KofamscanParser.determine_selected_indices rows top_n none := by
  have hlen : hits.length = rows.length := by
    have h := congrArg List.length hsame
    simpa using h
  have hany : (hits.any fun h => h.asterisk) = (rows.any fun r => r.asterisk) := by
    have h1 := any_map_id hits fun h => h.asterisk
    have h2 := any_map_id rows fun r => r.asterisk
    rw [← h1, ← h2, hsame]
  have hflag : ∀ (i : ℕ) (hk : i < hits.length) (hk' : i < rows.length),
      (hits.get ⟨i, hk⟩).asterisk = (rows.get ⟨i, hk'⟩).asterisk := by
    intro i hk hk'
    have h1 : (hits.map fun h => h.asterisk).get ⟨i, by simpa using hk⟩ =
        (hits.get ⟨i, hk⟩).asterisk := by
      simp
    have h2 : (rows.map fun r => r.asterisk).get ⟨i, by simpa using hk'⟩ =
        (rows.get ⟨i, hk'⟩).asterisk := by
      simp
    rw [← h1, ← h2]
    exact List.get_of_eq hsame _
  ext i
  rw [KofamParser.mem_selected_kofam, KofamscanParser.mem_selected_scan]
  constructor
  · rintro ⟨hk, hc⟩
    have hk' : i < rows.length := by omega
    refine ⟨hk', ?_⟩
    rw [KofamscanParser.selectCond, ← hany, ← hflag i hk hk']
    rw [KofamParser.selectCond] at hc
    rw [show KofamscanParser.passesRatioCheck (rows.get ⟨i, hk'⟩) none = true from rfl,
      Bool.and_true]
    exact hc
  · rintro ⟨hk', hc⟩
    have hk : i < hits.length := by omega
    refine ⟨hk, ?_⟩
    rw [KofamParser.selectCond, hany, hflag i hk hk']
    rw [KofamscanParser.selectCond,
      show KofamscanParser.passesRatioCheck (rows.get ⟨i, hk'⟩) none = true from rfl,
      Bool.and_true] at hc
    exact hc

theorem claim_C10_witness :
    KofamParser.determine_selected_indices [KofamParser.hitMark] 1 =
      KofamscanParser.determine_selected_indices [KofamscanParser.rowMark] 1 none :=
  claim_C10 [KofamParser.hitMark] [KofamscanParser.rowMark] 1 (by decide)

theorem getD_eq_get {α : Type} [Inhabited α] (l : List α) (i : ℕ) (h : i < l.length) :
    l.getD i default = l.get ⟨i, h⟩ := by
  simp [List.getD_eq_getElem?_getD, List.getElem?_eq_getElem h]

theorem mem_foldl_union {α β : Type} [DecidableEq β] (f : α → Finset β) :
    ∀ (l : List α) (init : Finset β) (x : β),
      x ∈ l.foldl (fun acc a => acc ∪ f a) init ↔ x ∈ init ∨ ∃ a ∈ l, x ∈ f a := by
  intro l
  induction l with
  | nil => intro init x; simp
  | cons a rest ih =>
    intro init x
    rw [List.foldl_cons, ih, Finset.mem_union]
    simp only [List.mem_cons]
    constructor
    · rintro ((h | h) | ⟨b, hb, hx⟩)
      · exact Or.inl h
      · exact Or.inr ⟨a, Or.inl rfl, h⟩
      · exact Or.inr ⟨b, Or.inr hb, hx⟩
    · rintro (h | ⟨b, hb | hb, hx⟩)
      · exact Or.inl (Or.inl h)
      · exact Or.inl (Or.inr (hb ▸ hx))
      · exact Or.inr ⟨b, hb, hx⟩

namespace KofamscanParser

/-- Per-gene step of the KO-collection loop of `format_ko_output`
(src/app/kofamscan_parser.py lines 132-139): the KOs of the hits at the
selected indices, guarded by `index < len(hits)`. -/
def kosOfGene (hits : List Row) (top_n : Int) (msr : Option Rat) : Finset String :=
  ((determine_selected_indices hits top_n msr).filter fun i => i < hits.length).image
    fun i => (hits.getD i default).ko

/-- Embedding of `format_ko_output` (src/app/kofamscan_parser.py
lines 127-142): accumulate the selected KOs of every gene into one set and
return them sorted. -/
def format_ko_output (gene_data : List (String × List Row)) (top_n : Int)
    (min_score_ratio : Option Rat) : List String :=
  (gene_data.foldl (fun acc p => acc ∪ kosOfGene p.2 top_n min_score_ratio) ∅).sort (· ≤ ·)

theorem mem_kosOfGene (hits : List Row) (top_n : Int) (msr : Option Rat) (s : String) :
    s ∈ kosOfGene hits top_n msr ↔
      ∃ i ∈ determine_selected_indices hits top_n msr,
        ∃ hk : i < hits.length, (hits.get ⟨i, hk⟩).ko = s := by
  rw [kosOfGene]
  simp only [Finset.mem_image, Finset.mem_filter]
  constructor
  · rintro ⟨i, ⟨hmem, hlt⟩, hko⟩
    refine ⟨i, hmem, hlt, ?_⟩
    rw [← getD_eq_get hits i hlt]
    exact hko
  · rintro ⟨i, hmem, hk, hko⟩
    refine ⟨i, ⟨hmem, hk⟩, ?_⟩
    rw [getD_eq_get hits i hk]
    exact hko

/-- C8: the KO-only output is a strictly sorted (hence duplicate-free) list
holding exactly the union, over every gene of the grouping, of the KO labels
of the hits at the selected indices. -/
theorem claim_C8 (gene_data : List (String × List Row)) (top_n : Int) (msr : Option Rat) :
    (format_ko_output gene_data top_n msr).Sorted (· < ·) ∧
    (∀ s, s ∈ format_ko_output gene_data top_n msr ↔
      ∃ p ∈ gene_data, ∃ i ∈ determine_selected_indices p.2 top_n msr,
        ∃ hk : i < p.2.length, (p.2.get ⟨i, hk⟩).ko = s) := by
  constructor
  · exact Finset.sort_sorted_lt _
  · intro s
    rw [format_ko_output, Finset.mem_sort, mem_foldl_union]
    simp only [Finset.not_mem_empty, false_or]
    constructor
    · rintro ⟨p, hp, hs⟩
      exact ⟨p, hp, (mem_kosOfGene _ _ _ _).mp hs⟩
    · rintro ⟨p, hp, h⟩
      exact ⟨p, hp, (mem_kosOfGene _ _ _ _).mpr h⟩

/-- Embedding of the per-line body of `group_by_genes`
(src/app/kofamscan_parser.py lines 27-48): strip trailing whitespace, drop
comment lines, blank lines, and lines with fewer than 7 tab-separated fields;
otherwise build the `Row` from the fixed field positions.  Python's `float(s)`
conversion is modelled by the abstract total function `floatOf`; the code
tests emptiness before converting, so an empty field yields 0.0 directly. -/
def parseLine (floatOf : String → Rat) (line : String) : Option Row :=
  let l := line.trimRight
  if l.startsWith "#" then none
  else if l = "" then none
  else
    let columns := l.splitOn "\t"
    if columns.length < 7 then none
    else some
      { asterisk := decide (columns.getD 0 "" = "*")
        original_columns := columns
        ko := columns.getD 2 ""
        gene := columns.getD 1 ""
        thrshld := if columns.getD 3 "" = "" then 0 else floatOf (columns.getD 3 "")
        score := if columns.getD 4 "" = "" then 0 else floatOf (columns.getD 4 "") }

/-- Appending a hit under its gene key in the insertion-ordered mapping: the
first entry with the key receives the hit at the end of its list; a missing
key is created at the end (Python dict insertion-order semantics of
`gene_data[gene].append(hit)` after `gene_data[gene] = []` on first sight). -/
def addHit (gene_data : List (String × List Row)) (gene : String) (hit : Row) :
    List (String × List Row) :=
  match gene_data with
  | [] => [(gene, [hit])]
  | (a, hs) :: rest =>
      if a = gene then (a, hs ++ [hit]) :: rest else (a, hs) :: addHit rest gene hit

/-- Embedding of `group_by_genes` (src/app/kofamscan_parser.py lines 23-64):
fold the lines, keeping the surviving rows grouped by gene. -/
def group_by_genes (floatOf : String → Rat) (lines : List String) :
    List (String × List Row) :=
  lines.foldl
    (fun gene_data line =>
      match parseLine floatOf line with
      | none => gene_data
      | some hit => addHit gene_data hit.gene hit)
    []

/-- Lookup of a gene key in the insertion-ordered mapping (Python dict
indexing), returning its hit list, or `[]` for a missing key. -/
def lookupGene : List (String × List Row) → String → List Row
  | [], _ => []
  | (a, hs) :: rest, g => if a = g then hs else lookupGene rest g

/-- The keys of a stream in first-seen order. -/
def firstSeen (keys : List String) : List String :=
  keys.foldl (fun acc g => if g ∈ acc then acc else acc ++ [g]) []

theorem keys_addHit (g : String) (h : Row) :
    ∀ gd : List (String × List Row),
      (addHit gd g h).map Prod.fst =
        if g ∈ gd.map Prod.fst then gd.map Prod.fst else gd.map Prod.fst ++ [g] := by
  intro gd
  induction gd with
  | nil => simp [addHit]
  | cons p rest ih =>
    obtain ⟨a, hs⟩ := p
    by_cases hag : a = g
    · simp [addHit, hag]
    · by_cases hmem : g ∈ rest.map Prod.fst <;>
        simp [addHit, hag, Ne.symm hag, ih, hmem]

theorem lookupGene_addHit (g' : String) (h : Row) :
    ∀ (gd : List (String × List Row)) (g : String),
      lookupGene (addHit gd g' h) g =
        if g = g' then lookupGene gd g ++ [h] else lookupGene gd g := by
  intro gd
  induction gd with
  | nil =>
    intro g
    by_cases hg : g = g'
    · subst hg
      simp [addHit, lookupGene]
    · simp [addHit, lookupGene, hg, Ne.symm hg]
  | cons p rest ih =>
    intro g
    obtain ⟨a, hs⟩ := p
    by_cases hag : a = g'
    · subst hag
      by_cases hg : g = a
      · subst hg
        simp [addHit, lookupGene]
      · simp [addHit, lookupGene, hg, Ne.symm hg]
    · by_cases hg : a = g
      · subst hg
        have hgg' : ¬ (a = g') := hag
        simp [addHit, lookupGene, hag, hgg']
      · simp [addHit, lookupGene, hag, hg, ih]

theorem foldl_addHit_keys :
    ∀ (rows : List Row) (gd : List (String × List Row)),
      (rows.foldl (fun gd r => addHit gd r.gene r) gd).map Prod.fst =
        (rows.map fun r => r.gene).foldl
          (fun acc g => if g ∈ acc then acc else acc ++ [g]) (gd.map Prod.fst) := by
  intro rows
  induction rows with
  | nil => intro gd; rfl
  | cons r rest ih =>
    intro gd
    rw [List.foldl_cons, List.map_cons, List.foldl_cons, ih, keys_addHit]

theorem foldl_addHit_lookup :
    ∀ (rows : List Row) (gd : List (String × List Row)) (g : String),
      lookupGene (rows.foldl (fun gd r => addHit gd r.gene r) gd) g =
        lookupGene gd g ++ (rows.filter fun r => r.gene == g) := by
  intro rows
  induction rows with
  | nil => intro gd g; simp
  | cons r rest ih =>
    intro gd g
    rw [List.foldl_cons, ih, lookupGene_addHit, List.filter_cons]
    by_cases hg : g = r.gene
    · have hbeq : (r.gene == g) = true := by simp [hg]
      simp [hg, hbeq]
    · have hbeq : (r.gene == g) = false := by
        simp only [beq_eq_false_iff_ne, ne_eq]
        exact fun hh => hg hh.symm
      simp [hg, hbeq]

theorem foldl_parse (floatOf : String → Rat) :
    ∀ (lines : List String) (gd : List (String × List Row)),
      lines.foldl
        (fun gene_data line =>
          match parseLine floatOf line with
          | none => gene_data
          | some hit => addHit gene_data hit.gene hit)
        gd =
      (lines.filterMap (parseLine floatOf)).foldl (fun gd r => addHit gd r.gene r) gd := by
  intro lines
  induction lines with
  | nil => intro gd; rfl
  | cons line rest ih =>
    intro gd
    rw [List.foldl_cons, List.filterMap_cons]
    cases hp : parseLine floatOf line with
    | none =>
      simp only [hp]
      exact ih gd
    | some hit =>
      simp only [hp, List.foldl_cons]
      exact ih (addHit gd hit.gene hit)

/-- C7: a line is excluded from grouping exactly when it is a comment line, a
blank line, or has fewer than 7 tab-separated fields; every surviving line
becomes a row carrying its fields, keyed by field 1; the keys of the grouping
are the surviving genes in first-seen order and each key maps to its rows in
input order. -/
theorem claim_C7 (floatOf : String → Rat) (lines : List String) :
    (∀ line, parseLine floatOf line = none ↔
        (line.trimRight.startsWith "#" = true ∨ line.trimRight = "" ∨
          (line.trimRight.splitOn "\t").length < 7)) ∧
    (∀ line,
        (parseLine floatOf line).all
          (fun r =>
            decide (r.gene = (line.trimRight.splitOn "\t").getD 1 "") &&
              decide (r.original_columns = line.trimRight.splitOn "\t")) = true) ∧
    ((group_by_genes floatOf lines).map Prod.fst =
        firstSeen ((lines.filterMap (parseLine floatOf)).map fun r => r.gene)) ∧
    (∀ g, lookupGene (group_by_genes floatOf lines) g =
        (lines.filterMap (parseLine floatOf)).filter fun r => r.gene == g) := by
  refine ⟨?_, ?_, ?_, ?_⟩
  · intro line
    simp only [parseLine]
    by_cases h1 : line.trimRight.startsWith "#" = true
    · simp [h1]
    · by_cases h2 : line.trimRight = ""
      · simp [h1, h2]
      · by_cases h3 : (line.trimRight.splitOn "\t").length < 7
        · simp [h1, h2, h3]
        · simp [h1, h2, h3]
  · intro line
    simp only [parseLine]
    split_ifs <;> simp [Option.all]
  · rw [group_by_genes, foldl_parse, foldl_addHit_keys, firstSeen]
    rfl
  · intro g
    rw [group_by_genes, foldl_parse, foldl_addHit_lookup]
    rfl

end KofamscanParser
